import Mathlib

/-!
Verification of the versioned schema-migration installer of `pgmq-rs`
(`src/install/{version,script,applied,mod}.rs`), via a shallow embedding.

Modeling conventions:
* Rust string slices (`&str`) are modeled as `List Char` (`Str` below).
* Rust `u32` version segments are modeled as `Nat` together with the explicit
  bound `u32Max`; `u32::from_str` overflow is modeled as an explicit range
  check on the parsed decimal value.
* The regexes of the source are modeled by equivalent executable functions on
  character lists; where a regex quantifier is greedy and the choice is
  observable (`pgmq--(.*)--(.*).sql`), the greedy choice (split at the last
  possible `--`) is modeled explicitly.  `\d` is modeled as an ASCII digit:
  a non-ASCII Unicode digit makes `u32::from_str` fail in the source, so the
  accepted set of strings is unchanged; only the error message differs.
* `itertools`' `sorted()` (a stable sort by `Ord`) is modeled by insertion
  sort, which is also stable; a stable sort's output is uniquely determined
  by the comparator and the input order, so the model is exact.
* The database is modeled as a state `DbState`: an opaque schema component
  `σ` acted on by an opaque statement interpreter `exec : σ → τ → Option σ`
  (a `none` result is a failed SQL statement), plus the ledger table
  `pgmq.__pgmq_migrations` as a list of `AppliedMigration` rows.  A
  transaction is modeled in the standard way: the loop of `install_sql`
  threads an uncommitted state and the commit publishes it; an error makes
  the transaction roll back, i.e. the committed state stays what it was.
-/

namespace Pgmq

/-- Rust `&str`, modeled as a list of characters. -/
abbrev Str := List Char

/-- Shorthand for writing embedded strings. -/
def str (s : String) : Str := s.toList

/-- `u32::MAX`: version segments are Rust `u32` values. -/
def u32Max : Nat := 4294967295

/-- `Version` from `src/install/version.rs`: a basic semver triple.
The `u32` fields are modeled as `Nat`; every `Version` produced by the
parser satisfies the `u32Max` bound (see the theorems below). -/
structure Version where
  major : Nat
  minor : Nat
  patch : Nat
deriving DecidableEq, Repr

/-- `impl Ord for Version` (`version.rs:80-100`): compare `major`, then
`minor`, then `patch`, short-circuiting on the first difference. -/
def Version.cmp (a b : Version) : Ordering :=
  match compare a.major b.major with
  | .lt => .lt
  | .gt => .gt
  | .eq =>
    match compare a.minor b.minor with
    | .lt => .lt
    | .gt => .gt
    | .eq => compare a.patch b.patch

/-- Rust `>=` on `Version`, derived from `Ord` (`a >= b` iff
`a.cmp(&b)` is `Greater` or `Equal`). -/
def Version.ge (a b : Version) : Bool :=
  match Version.cmp a b with
  | .lt => false
  | _ => true

/-- Splitting a string at every `'.'` (a faithful decomposition of the
anchored regex `^\d+\.\d+\.\d+$`: the regex matches exactly when this
split yields three nonempty all-digit segments). -/
def splitDot : Str → List Str
  | [] => [[]]
  | c :: rest =>
    if c = '.' then [] :: splitDot rest
    else
      match splitDot rest with
      | [] => [[c]]
      | h :: t => (c :: h) :: t

/-- A nonempty all-ASCII-digit segment, i.e. what `\d+` matches
(up to the Unicode-digit caveat discussed in the header). -/
def isDigits (l : Str) : Bool := !l.isEmpty && l.all Char.isDigit

/-- Decimal value of a digit string, as computed by `u32::from_str`
before its overflow check. -/
def parseDigits (l : Str) : Nat :=
  l.foldl (fun a c => 10 * a + (c.toNat - 48)) 0

/-- `impl FromStr for Version` (`version.rs:56-72`): match
`^(?<major>\d+)\.(?<minor>\d+)\.(?<patch>\d+)$`, then parse each capture
with `u32::from_str` (which fails on values above `u32::MAX`). -/
def Version.fromStr (s : Str) : Except String Version :=
  match splitDot s with
  | [a, b, c] =>
    if isDigits a && isDigits b && isDigits c then
      if parseDigits a ≤ u32Max ∧ parseDigits b ≤ u32Max ∧ parseDigits c ≤ u32Max then
        .ok ⟨parseDigits a, parseDigits b, parseDigits c⟩
      else .error "number too large to fit in target type"
    else .error "Invalid version"
  | _ => .error "Invalid version"

/-- Decimal rendering of a `Nat`, i.e. Rust's `Display` for `u32`
(standard decimal form, `"0"` for zero, no leading zeros otherwise),
expressed through Mathlib's `Nat.digits`. -/
def natChars (n : Nat) : Str :=
  if n = 0 then ['0'] else ((Nat.digits 10 n).map Nat.digitChar).reverse

/-- `impl Display for Version` (`version.rs:74-78`):
`write!(f, "{}.{}.{}", major, minor, patch)`. -/
def Version.toChars (v : Version) : Str :=
  natChars v.major ++ ('.' :: (natChars v.minor ++ ('.' :: natChars v.patch)))

/-- The fixed name of the fresh-installation script (`script.rs:16`). -/
def INIT_SCRIPT_NAME : Str := str "pgmq.sql"

/-- `ParsedScriptName` from `src/install/script.rs`.  The Rust fields
`from`/`to` are keywords in Lean and are rendered `fromV`/`toV`. -/
structure ParsedScriptName where
  original : Str
  fromV : Version
  toV : Version
deriving DecidableEq, Repr

/-- Split `l` at the LAST occurrence of `"--"` that is followed by at least
four characters, returning the parts before and after the separator.  This
is the greedy capture behavior of `(?<from>.*)--(?<to>.*).sql` inside the
anchored script-name regex: `.*` is greedy, so `from` extends to the last
`--` that still leaves room for `to`, the single wildcard character and the
literal `sql`. -/
def splitLastSep : Str → Option (Str × Str)
  | [] => none
  | c :: rest =>
    match splitLastSep rest with
    | some (a, b) => some (c :: a, b)
    | none =>
      if (c :: rest).take 2 = ['-', '-'] ∧ 6 ≤ (c :: rest).length then
        some ([], rest.drop 1)
      else none

/-- Capture groups of the script-name regex
`^pgmq--(?<from>.*)--(?<to>.*).sql$` (`script.rs:68`), `none` when the
regex does not match.  Note the unescaped `.` before `sql`: it matches any
single character except a newline (and likewise `.*` excludes newlines,
whence the `'\n'` check on everything after the literal prefix). -/
def scriptNameCaptures (s : Str) : Option (Str × Str) :=
  if s.take 6 = str "pgmq--" ∧ (s.drop 6).all (fun c => !(c == '\n')) then
    match splitLastSep (s.drop 6) with
    | some (a, b) =>
      match b.reverse with
      | c1 :: c2 :: c3 :: _ :: midrev =>
        if c1 = 'l' ∧ c2 = 'q' ∧ c3 = 's' then some (a, midrev.reverse) else none
      | _ => none
    | none => none
  else none

/-- `ParsedScriptName::from_static_str` (`script.rs:66-78`): match the
script-name regex, then parse both captures as `Version`s. -/
def ParsedScriptName.from_static_str (name : Str) : Except String ParsedScriptName :=
  match scriptNameCaptures name with
  | none => .error "Invalid script name"
  | some (f, t) => do
    let fv ← Version.fromStr f
    let tv ← Version.fromStr t
    .ok ⟨name, fv, tv⟩

/-- `ParsedScriptName::init_script` (`script.rs:83-93`): the synthesized
descriptor of the fresh-install script, `from = 0.0.0`, `to = version`. -/
def ParsedScriptName.init_script (version : Version) : ParsedScriptName :=
  { original := INIT_SCRIPT_NAME
    fromV := { major := 0, minor := 0, patch := 0 }
    toV := version }

/-- `impl Ord for ParsedScriptName` (`script.rs:96-100`): order by `from`. -/
def ParsedScriptName.cmp (a b : ParsedScriptName) : Ordering :=
  Version.cmp a.fromV b.fromV

/-- The non-strict order used by the stable sorts (`sorted()` sorts
ascending by `Ord`; an element `a` may stay before `b` iff `cmp a b` is
not `Greater`). -/
def scriptLe (a b : ParsedScriptName) : Prop :=
  ParsedScriptName.cmp a b ≠ .gt

instance : DecidableRel scriptLe := fun a b =>
  inferInstanceAs (Decidable (ParsedScriptName.cmp a b ≠ .gt))

/-- `ParsedScriptName::all_in_directory` (`script.rs:33-64`): take every
entry name, keep those that `from_static_str` accepts — note the
`.filter_map(|name| ... .ok())`, which silently drops every rejected name,
for whatever reason it was rejected — and sort them (stably) by `from`.
The `Result` of the source can only be an error when a directory entry's
file name is absent or not valid UTF-8; directory entries are modeled as
character lists, so that case cannot arise and the result is always `ok`. -/
def ParsedScriptName.all_in_directory (names : List Str) :
    Except String (List ParsedScriptName) :=
  .ok (List.insertionSort scriptLe
    (names.filterMap (fun n => (ParsedScriptName.from_static_str n).toOption)))

/-- A row of `pgmq.__pgmq_migrations` (`applied.rs:15-22`).  The source
stores `version` as text and parses it back on fetch; by the parse/format
round trip proved below, storing the `Version` value is equivalent.  The
`run_at` timestamp column is never read by the installer and is omitted. -/
structure AppliedMigration where
  name : Str
  version : Version
deriving DecidableEq, Repr

/-- `Iterator::max` over versions (`script.rs:180-184`).  `Ord::max`
returns the value of a maximal element; since `cmp` equality coincides
with structural equality, that value does not depend on which maximal
element the iterator picks. -/
def listMax : List Version → Option Version
  | [] => none
  | v :: rest =>
    match listMax rest with
    | none => some v
    | some m => if Version.cmp v m = .gt then some v else some m

/-- The `current_version` of `get_scripts_internal` (`script.rs:180-184`):
the maximum recorded version, or the bundled `pgmq_version` when the
ledger is empty. -/
def currentVersion (pgmqVersion : Version) (applied : List AppliedMigration) : Version :=
  (listMax (applied.map (fun a => a.version))).getD pgmqVersion

/-- `MigrationScript` (`script.rs:108-113`): a parsed name plus content.
The content type is a parameter: the planning claims never inspect it and
the execution claims use a list of statements. -/
structure MigrationScript (γ : Type) where
  name : ParsedScriptName
  content : γ
deriving DecidableEq, Repr

/-- `MigrationScript::new` (`script.rs:133-153`): fetch the named file from
the embedded directory, erroring when it is absent.  The directory is
modeled as a `(file name, content)` association list; `contents_utf8` is
total on it. -/
def MigrationScript.new (dir : List (Str × γ)) (name : ParsedScriptName) :
    Except String (MigrationScript γ) :=
  match dir.find? (fun e => e.1 == name.original) with
  | some e => .ok ⟨name, e.2⟩
  | none => .error "Migration script file not found"

/-- The row `recordApplied` adds for a script: its name and its `to`
version (`applied.rs:84-92`). -/
def rowOf (s : MigrationScript γ) : AppliedMigration :=
  ⟨s.name.original, s.name.toV⟩

/-- The name-level plan of `get_scripts_internal` (`script.rs:186-203`)
before sorting: catalog scripts with `from >= current_version`, with the
init script put in front, minus every script whose name already appears in
`applied`. -/
def candidateNames (pgmqVersion : Version) (catalog : List ParsedScriptName)
    (applied : List AppliedMigration) : List ParsedScriptName :=
  (ParsedScriptName.init_script pgmqVersion ::
      catalog.filter (fun n => Version.ge n.fromV (currentVersion pgmqVersion applied))).filter
    (fun s => !(applied.any (fun a => a.name == s.original)))

/-- `MigrationScript::get_scripts_internal` (`script.rs:172-208`): discover
the catalog, compute the candidate list, sort it by `from` and attach each
script's content. -/
def MigrationScript.get_scripts_internal (pgmqVersion : Version)
    (dir : List (Str × γ)) (applied : List AppliedMigration) :
    Except String (List (MigrationScript γ)) := do
  let catalog ← ParsedScriptName.all_in_directory (dir.map (fun e => e.1))
  (List.insertionSort scriptLe (candidateNames pgmqVersion catalog applied)).mapM
    (MigrationScript.new dir)

/-- The database as seen by the installer: an opaque schema state acted on
by migration-script statements, plus the ledger table. -/
structure DbState (σ : Type) where
  schema : σ
  ledger : List AppliedMigration

/-- Executing the semicolon-delimited statements of one script's content in
order, stopping at (and propagating) the first failure
(`script.rs:212-217`, the `let _ = step?;` in the `fetch_many` loop). -/
def runStatements (exec : σ → τ → Except String σ) : List τ → σ → Except String σ
  | [], s => .ok s
  | stmt :: rest, s =>
    match exec s stmt with
    | .error e => .error e
    | .ok s' => runStatements exec rest s'

/-- `MigrationScript::run` (`script.rs:211-224`): execute every statement of
the script, then insert the script's ledger row
(`AppliedMigration::insert_script(self)?.execute(tx.acquire().await?).await?`,
`script.rs:219-221` and `applied.rs:84-92`) — all on the same transaction,
here the same threaded state.  The INSERT's effect on success is fixed (one
row appended), but the database may fail the statement; that decision is
the opaque `insertRes` parameter: `none` means the INSERT succeeded, `some
e` that it failed with error `e`, which `?` propagates. -/
def MigrationScript.run (exec : σ → τ → Except String σ)
    (insertRes : σ → List AppliedMigration → AppliedMigration → Option String)
    (script : MigrationScript (List τ)) (db : DbState σ) :
    Except String (DbState σ) :=
  match runStatements exec script.content db.schema with
  | .error e => .error e
  | .ok sch =>
    match insertRes sch db.ledger (rowOf script) with
    | some e => .error e
    | none => .ok ⟨sch, db.ledger ++ [rowOf script]⟩

/-- The `for script in ... { script.run(&mut tx)?; }` loop of `install_sql`
(`mod.rs:12-14`), threading the uncommitted transaction state and
propagating the first error. -/
def installLoop (exec : σ → τ → Except String σ)
    (insertRes : σ → List AppliedMigration → AppliedMigration → Option String) :
    List (MigrationScript (List τ)) → DbState σ → Except String (DbState σ)
  | [], db => .ok db
  | s :: rest, db =>
    match s.run exec insertRes db with
    | .error e => .error e
    | .ok db' => installLoop exec insertRes rest db'

/-- `install_sql` (`mod.rs:10-17`): open a transaction, compute the plan
from the ledger as currently committed, run it, and commit.  The returned
pair is the source's `Result<(), PgmqError>` together with the committed
database state: any error — from planning, from a script statement, or
from recording an applied script — is surfaced unchanged to the caller,
and the aborted transaction is rolled back, so the committed state is
exactly the one the call found.  (A failing `tx.commit()` also rolls back
in the source; the commit itself is modeled as infallible.) -/
def install_sql (exec : σ → τ → Except String σ)
    (insertRes : σ → List AppliedMigration → AppliedMigration → Option String)
    (pgmqVersion : Version) (dir : List (Str × List τ)) (db : DbState σ) :
    Except String Unit × DbState σ :=
  match MigrationScript.get_scripts_internal pgmqVersion dir db.ledger with
  | .error e => (.error e, db)
  | .ok plan =>
    match installLoop exec insertRes plan db with
    | .error e => (.error e, db)
    | .ok db' => (.ok (), db')

/-! ### Order lemmas for `Version.cmp` -/

/-- Strict lexicographic order on the `(major, minor, patch)` triple. -/
def lexLt (a b : Version) : Prop :=
  a.major < b.major ∨ (a.major = b.major ∧
    (a.minor < b.minor ∨ (a.minor = b.minor ∧ a.patch < b.patch)))

/-- Non-strict lexicographic order on the triple. -/
def lexLe (a b : Version) : Prop := lexLt a b ∨ a = b

theorem cmp_eq_lt_iff (a b : Version) : Version.cmp a b = .lt ↔ lexLt a b := by
  obtain ⟨a1, a2, a3⟩ := a
  obtain ⟨b1, b2, b3⟩ := b
  unfold Version.cmp lexLt
  rcases Nat.lt_trichotomy a1 b1 with h | h | h <;>
    rcases Nat.lt_trichotomy a2 b2 with h' | h' | h' <;>
      simp_all [Nat.compare_eq_lt.2, Nat.compare_eq_gt.2, Nat.compare_eq_eq.2,
        Nat.compare_eq_lt, Nat.compare_eq_gt, Nat.compare_eq_eq] <;> omega

theorem cmp_eq_eq_iff (a b : Version) : Version.cmp a b = .eq ↔ a = b := by
  obtain ⟨a1, a2, a3⟩ := a
  obtain ⟨b1, b2, b3⟩ := b
  unfold Version.cmp
  rcases Nat.lt_trichotomy a1 b1 with h | h | h <;>
    rcases Nat.lt_trichotomy a2 b2 with h' | h' | h' <;>
      simp_all [Nat.compare_eq_lt.2, Nat.compare_eq_gt.2, Nat.compare_eq_eq.2,
        Nat.compare_eq_lt, Nat.compare_eq_gt, Nat.compare_eq_eq, Version.mk.injEq] <;> omega

theorem cmp_eq_gt_iff (a b : Version) : Version.cmp a b = .gt ↔ lexLt b a := by
  obtain ⟨a1, a2, a3⟩ := a
  obtain ⟨b1, b2, b3⟩ := b
  unfold Version.cmp lexLt
  rcases Nat.lt_trichotomy a1 b1 with h | h | h <;>
    rcases Nat.lt_trichotomy a2 b2 with h' | h' | h' <;>
      simp_all [Nat.compare_eq_lt.2, Nat.compare_eq_gt.2, Nat.compare_eq_eq.2,
        Nat.compare_eq_lt, Nat.compare_eq_gt, Nat.compare_eq_eq] <;> omega

theorem cmp_ne_gt_iff (a b : Version) : Version.cmp a b ≠ .gt ↔ lexLe a b := by
  constructor
  · intro h
    rcases ho : Version.cmp a b with _ | _ | _
    · exact Or.inl ((cmp_eq_lt_iff a b).1 ho)
    · exact Or.inr ((cmp_eq_eq_iff a b).1 ho)
    · exact absurd ho h
  · rintro (h | rfl) <;> intro hc
    · have := (cmp_eq_gt_iff a b).1 hc
      unfold lexLt at h this
      omega
    · have := (cmp_eq_gt_iff a a).1 hc
      unfold lexLt at this
      omega

theorem ge_iff (a b : Version) : Version.ge a b = true ↔ lexLe b a := by
  unfold Version.ge
  rcases ho : Version.cmp a b with _ | _ | _
  · simp only [reduceCtorEq, false_iff]
    intro h
    have hlt := (cmp_eq_lt_iff a b).1 ho
    rcases h with h | heq
    · unfold lexLt at h hlt
      omega
    · subst heq
      unfold lexLt at hlt
      omega
  · simp only [true_iff]
    exact Or.inr ((cmp_eq_eq_iff a b).1 ho).symm
  · simp only [true_iff]
    exact Or.inl ((cmp_eq_gt_iff a b).1 ho)

theorem lexLe_refl (a : Version) : lexLe a a := Or.inr rfl

theorem lexLe_trans {a b c : Version} (h1 : lexLe a b) (h2 : lexLe b c) : lexLe a c := by
  obtain ⟨a1, a2, a3⟩ := a
  obtain ⟨b1, b2, b3⟩ := b
  obtain ⟨c1, c2, c3⟩ := c
  unfold lexLe lexLt at h1 h2 ⊢
  simp only [Version.mk.injEq] at h1 h2 ⊢
  omega

theorem lexLe_total (a b : Version) : lexLe a b ∨ lexLe b a := by
  obtain ⟨a1, a2, a3⟩ := a
  obtain ⟨b1, b2, b3⟩ := b
  unfold lexLe lexLt
  simp only [Version.mk.injEq]
  omega

theorem scriptLe_iff (a b : ParsedScriptName) : scriptLe a b ↔ lexLe a.fromV b.fromV := by
  unfold scriptLe ParsedScriptName.cmp
  exact cmp_ne_gt_iff _ _

instance : IsTotal ParsedScriptName scriptLe :=
  ⟨fun a b => by
    rw [scriptLe_iff, scriptLe_iff]
    exact lexLe_total _ _⟩

instance : IsTrans ParsedScriptName scriptLe :=
  ⟨fun a b c hab hbc => by
    rw [scriptLe_iff] at hab hbc ⊢
    exact lexLe_trans hab hbc⟩

/-! ### Lemmas about `listMax` -/

theorem listMax_isSome {l : List Version} (h : l ≠ []) : ∃ m, listMax l = some m := by
  cases l with
  | nil => exact absurd rfl h
  | cons v rest =>
    unfold listMax
    rcases hr : listMax rest with _ | m
    · exact ⟨v, rfl⟩
    · by_cases hc : Version.cmp v m = .gt
      · exact ⟨v, by simp [hc]⟩
      · exact ⟨m, by simp [hc]⟩

theorem listMax_eq_none {l : List Version} (h : listMax l = none) : l = [] := by
  cases l with
  | nil => rfl
  | cons v rest =>
    unfold listMax at h
    rcases hr : listMax rest with _ | m' <;> rw [hr] at h
    · exact absurd h (by simp)
    · by_cases hc : Version.cmp v m' = .gt <;> simp [hc] at h

theorem listMax_mem {l : List Version} {m : Version} (h : listMax l = some m) : m ∈ l := by
  induction l generalizing m with
  | nil => simp [listMax] at h
  | cons v rest ih =>
    unfold listMax at h
    rcases hr : listMax rest with _ | m' <;> rw [hr] at h
    · simp only [Option.some.injEq] at h
      exact h ▸ List.mem_cons_self _ _
    · by_cases hc : Version.cmp v m' = .gt <;> simp only [hc, if_true, if_false,
        reduceIte, Option.some.injEq] at h
      · exact h ▸ List.mem_cons_self _ _
      · exact List.mem_cons_of_mem _ (h ▸ ih hr)

theorem le_listMax {l : List Version} {v m : Version} (hv : v ∈ l)
    (h : listMax l = some m) : lexLe v m := by
  induction l generalizing m with
  | nil => simp at hv
  | cons x rest ih =>
    unfold listMax at h
    rcases hr : listMax rest with _ | m' <;> rw [hr] at h
    · simp only [Option.some.injEq] at h
      subst h
      rcases List.mem_cons.1 hv with rfl | hv'
      · exact lexLe_refl _
      · rw [listMax_eq_none hr] at hv'
        simp at hv'
    · rcases List.mem_cons.1 hv with rfl | hv'
      · by_cases hc : Version.cmp v m' = .gt <;> simp only [hc, reduceIte,
          Option.some.injEq] at h
        · exact h ▸ lexLe_refl _
        · subst h
          exact (cmp_ne_gt_iff _ _).1 hc
      · have hle : lexLe v m' := ih hv' hr
        by_cases hc : Version.cmp x m' = .gt <;> simp only [hc, reduceIte,
          Option.some.injEq] at h
        · subst h
          exact lexLe_trans hle (Or.inl ((cmp_eq_gt_iff _ _).1 hc))
        · exact h ▸ hle

/-! ### Decimal formatting and parsing round trip -/

theorem digitChar_toNat {d : Nat} (h : d < 10) : (Nat.digitChar d).toNat = 48 + d := by
  interval_cases d <;> rfl

theorem digitChar_isDigit {d : Nat} (h : d < 10) : (Nat.digitChar d).isDigit = true := by
  interval_cases d <;> rfl

theorem isDigit_ne_dot {c : Char} (h : c.isDigit = true) : c ≠ '.' := by
  intro hc
  subst hc
  simp [Char.isDigit] at h

theorem isDigit_ne_dash {c : Char} (h : c.isDigit = true) : c ≠ '-' := by
  intro hc
  subst hc
  simp [Char.isDigit] at h

theorem isDigit_ne_newline {c : Char} (h : c.isDigit = true) : c ≠ '\n' := by
  intro hc
  subst hc
  simp [Char.isDigit] at h

theorem parseDigits_append_singleton (l : Str) (c : Char) :
    parseDigits (l ++ [c]) = 10 * parseDigits l + (c.toNat - 48) := by
  unfold parseDigits
  rw [List.foldl_append]
  rfl

theorem parseDigits_rev_map {ds : List Nat} (h : ∀ d ∈ ds, d < 10) :
    parseDigits ((ds.map Nat.digitChar).reverse) = Nat.ofDigits 10 ds := by
  induction ds with
  | nil => rfl
  | cons d rest ih =>
    have hd : d < 10 := h d (List.mem_cons_self _ _)
    have hrest : ∀ x ∈ rest, x < 10 := fun x hx => h x (List.mem_cons_of_mem _ hx)
    simp only [List.map_cons, List.reverse_cons, parseDigits_append_singleton,
      ih hrest, Nat.ofDigits_cons, digitChar_toNat hd]
    omega

theorem parseDigits_natChars (n : Nat) : parseDigits (natChars n) = n := by
  unfold natChars
  by_cases h : n = 0
  · subst h
    rfl
  · simp only [h, reduceIte]
    have hlt : ∀ d ∈ Nat.digits 10 n, d < 10 := fun d hd =>
      Nat.digits_lt_base (by omega) hd
    rw [parseDigits_rev_map hlt, Nat.ofDigits_digits]

theorem natChars_all_digits (n : Nat) : ∀ c ∈ natChars n, c.isDigit = true := by
  unfold natChars
  by_cases h : n = 0
  · subst h
    intro c hc
    simp only [reduceIte, List.mem_singleton] at hc
    subst hc
    rfl
  · simp only [h, reduceIte]
    intro c hc
    rw [List.mem_reverse, List.mem_map] at hc
    obtain ⟨d, hd, rfl⟩ := hc
    exact digitChar_isDigit (Nat.digits_lt_base (by omega) hd)

theorem natChars_ne_nil (n : Nat) : natChars n ≠ [] := by
  unfold natChars
  by_cases h : n = 0
  · simp [h]
  · simp only [h, reduceIte, ne_eq, List.reverse_eq_nil_iff, List.map_eq_nil_iff]
    exact Nat.digits_ne_nil_iff_ne_zero.2 h

theorem isDigits_natChars (n : Nat) : isDigits (natChars n) = true := by
  unfold isDigits
  rw [Bool.and_eq_true]
  constructor
  · simp [List.isEmpty_iff, natChars_ne_nil n]
  · rw [List.all_eq_true]
    exact natChars_all_digits n

theorem splitDot_cons (c : Char) (rest : Str) :
    splitDot (c :: rest) =
      if c = '.' then [] :: splitDot rest
      else
        match splitDot rest with
        | [] => [[c]]
        | h :: t => (c :: h) :: t := by
  rw [splitDot]

theorem splitDot_ne_nil (s : Str) : splitDot s ≠ [] := by
  cases s with
  | nil => simp [splitDot]
  | cons c rest =>
    rw [splitDot_cons]
    by_cases h : c = '.'
    · simp [h]
    · simp only [h, reduceIte]
      rcases splitDot rest with _ | ⟨h', t⟩ <;> simp

theorem splitDot_no_dot {s : Str} (h : ∀ c ∈ s, c ≠ '.') : splitDot s = [s] := by
  induction s with
  | nil => rfl
  | cons c rest ih =>
    have hc : c ≠ '.' := h c (List.mem_cons_self _ _)
    have hrest : ∀ x ∈ rest, x ≠ '.' := fun x hx => h x (List.mem_cons_of_mem _ hx)
    rw [splitDot_cons, if_neg hc, ih hrest]

theorem splitDot_append {a : Str} (rest : Str) (h : ∀ c ∈ a, c ≠ '.') :
    splitDot (a ++ '.' :: rest) = a :: splitDot rest := by
  induction a with
  | nil => rw [List.nil_append, splitDot_cons, if_pos rfl]
  | cons c t ih =>
    have hc : c ≠ '.' := h c (List.mem_cons_self _ _)
    have ht : ∀ x ∈ t, x ≠ '.' := fun x hx => h x (List.mem_cons_of_mem _ hx)
    rw [List.cons_append, splitDot_cons, if_neg hc, ih ht]

/-- Joining what `splitDot` produced; used to recover the original string
from a parse. -/
def joinDots : List Str → Str
  | [] => []
  | [x] => x
  | x :: xs => x ++ '.' :: joinDots xs

theorem joinDots_cons_of_ne_nil (x : Str) {xs : List Str} (h : xs ≠ []) :
    joinDots (x :: xs) = x ++ '.' :: joinDots xs := by
  cases xs with
  | nil => exact absurd rfl h
  | cons y t => rfl

theorem joinDots_splitDot (s : Str) : joinDots (splitDot s) = s := by
  induction s with
  | nil => rfl
  | cons c rest ih =>
    rw [splitDot_cons]
    by_cases h : c = '.'
    · rw [if_pos h, joinDots_cons_of_ne_nil _ (splitDot_ne_nil rest), ih, h]
      rfl
    · rw [if_neg h]
      rcases hs : splitDot rest with _ | ⟨h', t⟩
      · exact absurd hs (splitDot_ne_nil rest)
      · rw [hs] at ih
        cases t with
        | nil =>
          simp only [joinDots] at ih ⊢
          simp [ih]
        | cons u v =>
          simp only [joinDots] at ih ⊢
          simp [ih]

/-- Characters of a string accepted by `Version.fromStr` are digits or
dots; in particular no dash and no newline occurs in it, and it is
nonempty. -/
theorem fromStr_ok_chars {s : Str} {v : Version} (h : Version.fromStr s = .ok v) :
    (∀ c ∈ s, c.isDigit = true ∨ c = '.') ∧ s ≠ [] := by
  unfold Version.fromStr at h
  rcases hs : splitDot s with _ | ⟨a, t⟩ <;> rw [hs] at h
  · exact absurd hs (splitDot_ne_nil s)
  rcases t with _ | ⟨b, t'⟩
  · dsimp only at h
    simp at h
  rcases t' with _ | ⟨c, t''⟩
  · dsimp only at h
    simp at h
  rcases t'' with _ | ⟨d, t'''⟩
  swap
  · dsimp only at h
    simp at h
  dsimp only at h
  by_cases hd : (isDigits a && isDigits b && isDigits c) = true
  swap
  · rw [if_neg hd] at h
    simp at h
  rw [if_pos hd] at h
  rw [Bool.and_eq_true, Bool.and_eq_true] at hd
  obtain ⟨⟨ha, hb⟩, hc⟩ := hd
  have hall : ∀ (x : Str), isDigits x = true → ∀ ch ∈ x, ch.isDigit = true := by
    intro x hx ch hch
    unfold isDigits at hx
    rw [Bool.and_eq_true] at hx
    exact List.all_eq_true.1 hx.2 ch hch
  have hjoin := joinDots_splitDot s
  rw [hs] at hjoin
  simp only [joinDots] at hjoin
  constructor
  · intro ch hch
    rw [← hjoin] at hch
    simp only [List.mem_append, List.mem_cons] at hch
    rcases hch with hch | hch | hch | hch | hch
    · exact Or.inl (hall a ha ch hch)
    · exact Or.inr hch
    · exact Or.inl (hall b hb ch hch)
    · exact Or.inr hch
    · exact Or.inl (hall c hc ch hch)
  · intro hnil
    rw [hnil] at hjoin
    simp at hjoin

/-- Dissection of a successful parse: three nonempty digit segments whose
decimal values are the fields and fit in `u32`. -/
theorem fromStr_ok_elim {s : Str} {v : Version} (h : Version.fromStr s = .ok v) :
    ∃ a b c, splitDot s = [a, b, c] ∧ isDigits a = true ∧ isDigits b = true ∧
      isDigits c = true ∧ parseDigits a = v.major ∧ parseDigits b = v.minor ∧
      parseDigits c = v.patch ∧ v.major ≤ u32Max ∧ v.minor ≤ u32Max ∧
      v.patch ≤ u32Max := by
  unfold Version.fromStr at h
  rcases hs : splitDot s with _ | ⟨a, t⟩ <;> rw [hs] at h
  · exact absurd hs (splitDot_ne_nil s)
  rcases t with _ | ⟨b, t'⟩
  · dsimp only at h
    simp at h
  rcases t' with _ | ⟨c, t''⟩
  · dsimp only at h
    simp at h
  rcases t'' with _ | ⟨d, t'''⟩
  swap
  · dsimp only at h
    simp at h
  dsimp only at h
  by_cases hd : (isDigits a && isDigits b && isDigits c) = true
  swap
  · rw [if_neg hd] at h
    simp at h
  rw [if_pos hd] at h
  by_cases hbound : parseDigits a ≤ u32Max ∧ parseDigits b ≤ u32Max ∧ parseDigits c ≤ u32Max
  swap
  · rw [if_neg hbound] at h
    simp at h
  rw [if_pos hbound] at h
  simp only [Except.ok.injEq] at h
  rw [Bool.and_eq_true, Bool.and_eq_true] at hd
  subst h
  exact ⟨a, b, c, rfl, hd.1.1, hd.1.2, hd.2, rfl, rfl, rfl, hbound.1, hbound.2.1, hbound.2.2⟩

theorem fromStr_ok_no_dash {s : Str} {v : Version} (h : Version.fromStr s = .ok v) :
    ∀ c ∈ s, c ≠ '-' := by
  intro c hc
  rcases (fromStr_ok_chars h).1 c hc with hd | hd
  · exact isDigit_ne_dash hd
  · subst hd
    decide

theorem fromStr_ok_no_newline {s : Str} {v : Version} (h : Version.fromStr s = .ok v) :
    ∀ c ∈ s, c ≠ '\n' := by
  intro c hc
  rcases (fromStr_ok_chars h).1 c hc with hd | hd
  · exact isDigit_ne_newline hd
  · subst hd
    decide

theorem fromStr_ok_ne_nil {s : Str} {v : Version} (h : Version.fromStr s = .ok v) :
    s ≠ [] := (fromStr_ok_chars h).2

/-! ### The script-name regex model -/

/-- Whether `"--"` occurs anywhere in the string. -/
def hasDD : Str → Bool
  | [] => false
  | [_] => false
  | c :: d :: rest => (c == '-' && d == '-') || hasDD (d :: rest)

theorem splitLastSep_cons (c : Char) (rest : Str) :
    splitLastSep (c :: rest) =
      match splitLastSep rest with
      | some (a, b) => some (c :: a, b)
      | none =>
        if (c :: rest).take 2 = ['-', '-'] ∧ 6 ≤ (c :: rest).length then
          some ([], rest.drop 1)
        else none := by
  rw [splitLastSep]

theorem splitLastSep_none_of_not_hasDD {l : Str} (h : hasDD l = false) :
    splitLastSep l = none := by
  induction l with
  | nil => rfl
  | cons c rest ih =>
    have hrest : hasDD rest = false := by
      cases rest with
      | nil => rfl
      | cons d r =>
        rw [hasDD] at h
        exact (Bool.or_eq_false_iff.1 h).2
    rw [splitLastSep_cons, ih hrest]
    rw [if_neg]
    rintro ⟨htake, hlen⟩
    cases rest with
    | nil => simp at htake
    | cons d r =>
      simp only [List.take, List.cons.injEq] at htake
      rw [hasDD] at h
      simp [htake.1, htake.2.1] at h

theorem splitLastSep_sound {l a b : Str} (h : splitLastSep l = some (a, b)) :
    l = a ++ '-' :: '-' :: b ∧ 4 ≤ b.length := by
  induction l generalizing a b with
  | nil => simp [splitLastSep] at h
  | cons c rest ih =>
    rw [splitLastSep_cons] at h
    rcases hr : splitLastSep rest with _ | ⟨a', b'⟩ <;> rw [hr] at h
    · by_cases hcond : (c :: rest).take 2 = ['-', '-'] ∧ 6 ≤ (c :: rest).length
      · rw [if_pos hcond] at h
        obtain ⟨htake, hlen⟩ := hcond
        cases rest with
        | nil => simp at htake
        | cons d r =>
          simp only [List.take, List.cons.injEq] at htake
          obtain ⟨rfl, rfl, -⟩ := htake
          simp only [Option.some.injEq, Prod.mk.injEq] at h
          obtain ⟨rfl, rfl⟩ := h
          simp only [List.length_cons] at hlen
          refine ⟨rfl, by simpa using hlen⟩
      · rw [if_neg hcond] at h
        simp at h
    · simp only [Option.some.injEq, Prod.mk.injEq] at h
      obtain ⟨rfl, rfl⟩ := h
      obtain ⟨hrest, hblen⟩ := ih hr
      exact ⟨by rw [hrest, List.cons_append], hblen⟩

theorem splitLastSep_last {b : Str} (a : Str) (hdd : hasDD ('-' :: b) = false)
    (hlen : 4 ≤ b.length) :
    splitLastSep (a ++ '-' :: '-' :: b) = some (a, b) := by
  induction a with
  | nil =>
    have hcond : ('-' :: '-' :: b).take 2 = ['-', '-'] ∧ 6 ≤ ('-' :: '-' :: b).length :=
      ⟨rfl, by simp only [List.length_cons]; omega⟩
    rw [List.nil_append, splitLastSep_cons,
      splitLastSep_none_of_not_hasDD hdd, if_pos hcond]
    rfl
  | cons x a' ih =>
    rw [List.cons_append, splitLastSep_cons, ih]

theorem hasDD_cons₂ (c d : Char) (rest : Str) :
    hasDD (c :: d :: rest) = ((c == '-' && d == '-') || hasDD (d :: rest)) := rfl

theorem hasDD_false_tail {t : Str} (ht : ∀ c ∈ t, c ≠ '-') (x : Char) :
    hasDD (t ++ x :: str "sql") = false := by
  induction t with
  | nil =>
    have hs : str "sql" = 's' :: 'q' :: ['l'] := rfl
    rw [List.nil_append, hs, hasDD_cons₂]
    have h1 : hasDD ('s' :: 'q' :: ['l']) = false := by decide
    have h2 : ('s' == '-') = false := by decide
    rw [h1, h2]
    simp
  | cons c t' ih =>
    have hc : c ≠ '-' := ht c (List.mem_cons_self _ _)
    have ht' : ∀ y ∈ t', y ≠ '-' := fun y hy => ht y (List.mem_cons_of_mem _ hy)
    rw [List.cons_append]
    cases t' with
    | nil =>
      have h1 := ih ht'
      rw [List.nil_append] at h1 ⊢
      rw [hasDD_cons₂, h1]
      simp [beq_eq_false_iff_ne.2 hc]
    | cons d t'' =>
      have h1 := ih ht'
      rw [List.cons_append] at h1 ⊢
      rw [hasDD_cons₂, h1]
      simp [beq_eq_false_iff_ne.2 hc]

theorem hasDD_false_sep {t : Str} (ht : ∀ c ∈ t, c ≠ '-') (htne : t ≠ [])
    (x : Char) : hasDD ('-' :: (t ++ x :: str "sql")) = false := by
  cases t with
  | nil => exact absurd rfl htne
  | cons c t' =>
    have h1 : hasDD ((c :: t') ++ x :: str "sql") = false := hasDD_false_tail ht x
    rw [List.cons_append] at h1 ⊢
    rw [hasDD_cons₂, h1]
    have hc : c ≠ '-' := ht c (List.mem_cons_self _ _)
    simp [beq_eq_false_iff_ne.2 hc]

/-- The exact set of names `from_static_str` accepts: the literal prefix
`pgmq--`, a `from` and a `to` that parse as versions separated by the last
`--` of the name, then one arbitrary non-newline character followed by the
literal `sql` (the regex's `.sql` with an unescaped dot). -/
def regexAccept (s : Str) : Prop :=
  ∃ f t x fv tv,
    s = str "pgmq--" ++ (f ++ ('-' :: '-' :: (t ++ x :: str "sql"))) ∧
      Version.fromStr f = .ok fv ∧ Version.fromStr t = .ok tv ∧ x ≠ '\n'

theorem from_static_str_ok_iff (s : Str) :
    (ParsedScriptName.from_static_str s).isOk = true ↔ regexAccept s := by
  constructor
  · intro h
    unfold ParsedScriptName.from_static_str at h
    rcases hc : scriptNameCaptures s with _ | ⟨f, t⟩ <;> rw [hc] at h <;>
      simp only [Except.bind, Bind.bind] at h
    · simp [Except.isOk, Except.toBool] at h
    rcases hf : Version.fromStr f with ef | fv <;> rw [hf] at h
    · simp [Except.isOk, Except.toBool] at h
    rcases ht : Version.fromStr t with et | tv <;> rw [ht] at h
    · simp [Except.isOk, Except.toBool] at h
    clear h
    unfold scriptNameCaptures at hc
    split at hc
    swap
    · simp at hc
    rename_i hpre
    obtain ⟨htake, hnl⟩ := hpre
    rcases hsplit : splitLastSep (s.drop 6) with _ | ⟨a, b⟩ <;> rw [hsplit] at hc <;>
      dsimp only at hc
    · simp at hc
    rcases hbrev : b.reverse with _ | ⟨c1, r1⟩ <;> rw [hbrev] at hc
    · simp at hc
    rcases r1 with _ | ⟨c2, r2⟩
    · simp at hc
    rcases r2 with _ | ⟨c3, r3⟩
    · simp at hc
    rcases r3 with _ | ⟨x, midrev⟩
    · simp at hc
    dsimp only at hc
    by_cases hlq : c1 = 'l' ∧ c2 = 'q' ∧ c3 = 's'
    swap
    · rw [if_neg hlq] at hc
      simp at hc
    rw [if_pos hlq] at hc
    obtain ⟨rfl, rfl, rfl⟩ := hlq
    simp only [Option.some.injEq, Prod.mk.injEq] at hc
    obtain ⟨rfl, rfl⟩ := hc
    obtain ⟨hsb, hblen⟩ := splitLastSep_sound hsplit
    have hb : b = midrev.reverse ++ x :: str "sql" := by
      have h2 := congrArg List.reverse hbrev
      rw [List.reverse_reverse] at h2
      rw [h2]
      simp [str, List.append_assoc]
    have hx : x ≠ '\n' := by
      have hxb : x ∈ b := by
        rw [hb]
        simp
      have hxmem : x ∈ s.drop 6 := by
        rw [hsb]
        simp [hxb]
      have := List.all_eq_true.1 hnl x hxmem
      simpa using this
    refine ⟨a, midrev.reverse, x, fv, tv, ?_, hf, ht, hx⟩
    rw [← List.take_append_drop 6 s, htake, hsb, hb]
  · rintro ⟨f, t, x, fv, tv, rfl, hf, ht, hx⟩
    have htchars := fromStr_ok_no_dash ht
    have htne : t ≠ [] := fromStr_ok_ne_nil ht
    have hplen : (str "pgmq--").length = 6 := rfl
    have htake : (str "pgmq--" ++ (f ++ ('-' :: '-' :: (t ++ x :: str "sql")))).take 6 =
        str "pgmq--" := by
      rw [← hplen, List.take_left]
    have hdrop : (str "pgmq--" ++ (f ++ ('-' :: '-' :: (t ++ x :: str "sql")))).drop 6 =
        f ++ ('-' :: '-' :: (t ++ x :: str "sql")) := by
      rw [← hplen, List.drop_left]
    have hsqlnl : ∀ c ∈ str "sql", (!(c == '\n')) = true := by decide
    have hnl : (f ++ ('-' :: '-' :: (t ++ x :: str "sql"))).all
        (fun c => !(c == '\n')) = true := by
      rw [List.all_eq_true]
      intro c hcm
      simp only [List.mem_append, List.mem_cons] at hcm
      rcases hcm with hcm | hcm | hcm | hcm | hcm | hcm
      · simp only [Bool.not_eq_true', beq_eq_false_iff_ne]
        exact fromStr_ok_no_newline hf c hcm
      · subst hcm
        decide
      · subst hcm
        decide
      · simp only [Bool.not_eq_true', beq_eq_false_iff_ne]
        exact fromStr_ok_no_newline ht c hcm
      · subst hcm
        simp only [Bool.not_eq_true', beq_eq_false_iff_ne]
        exact hx
      · exact hsqlnl c hcm
    have hlen4 : 4 ≤ (t ++ x :: str "sql").length := by
      have h3 : (str "sql").length = 3 := rfl
      simp [List.length_append, List.length_cons, h3]
    have hsep : splitLastSep (f ++ '-' :: '-' :: (t ++ x :: str "sql")) =
        some (f, t ++ x :: str "sql") :=
      splitLastSep_last f (hasDD_false_sep htchars htne x) hlen4
    have hbrev : (t ++ x :: str "sql").reverse = 'l' :: 'q' :: 's' :: x :: t.reverse := by
      rw [List.reverse_append]
      rfl
    have hcap : scriptNameCaptures (str "pgmq--" ++ (f ++ ('-' :: '-' :: (t ++ x :: str "sql")))) =
        some (f, t) := by
      unfold scriptNameCaptures
      rw [if_pos ⟨htake, by rw [hdrop]; exact hnl⟩, hdrop, hsep]
      dsimp only
      rw [hbrev]
      dsimp only
      rw [if_pos ⟨rfl, rfl, rfl⟩, List.reverse_reverse]
    unfold ParsedScriptName.from_static_str
    rw [hcap]
    simp only [Except.bind, Bind.bind]
    rw [hf]
    dsimp only
    rw [ht]
    rfl

/-! ### Planner and runner lemmas -/

theorem mapM_new_names {γ : Type} {dir : List (Str × γ)} :
    ∀ {names : List ParsedScriptName} {plan : List (MigrationScript γ)},
      names.mapM (MigrationScript.new dir) = .ok plan →
        plan.map (fun s => s.name) = names := by
  intro names
  induction names with
  | nil =>
    intro plan h
    simp only [List.mapM_nil, pure, Except.pure, Except.ok.injEq] at h
    rw [← h]
    rfl
  | cons n rest ih =>
    intro plan h
    rw [List.mapM_cons] at h
    simp only [bind, Except.bind, pure, Except.pure] at h
    rcases hn : MigrationScript.new dir n with e | s <;> rw [hn] at h
    · simp at h
    rcases hr : rest.mapM (MigrationScript.new dir) with e | ss <;> rw [hr] at h
    · simp at h
    simp only [Except.ok.injEq] at h
    rw [← h]
    have hname : s.name = n := by
      unfold MigrationScript.new at hn
      rcases hfind : dir.find? (fun e => e.1 == n.original) with _ | entry <;>
        rw [hfind] at hn
      · simp at hn
      · simp only [Except.ok.injEq] at hn
        rw [← hn]
    simp only [List.map_cons, hname, ih hr]

theorem installLoop_ledger {σ τ : Type} {exec : σ → τ → Except String σ}
    {insertRes : σ → List AppliedMigration → AppliedMigration → Option String} :
    ∀ {plan : List (MigrationScript (List τ))} {db db' : DbState σ},
      installLoop exec insertRes plan db = .ok db' →
        db'.ledger = db.ledger ++ plan.map rowOf := by
  intro plan
  induction plan with
  | nil =>
    intro db db' h
    simp only [installLoop, Except.ok.injEq] at h
    rw [← h]
    simp
  | cons s rest ih =>
    intro db db' h
    rw [installLoop] at h
    rcases hr : s.run exec insertRes db with e | db1 <;> rw [hr] at h
    · simp at h
    have h1 := ih h
    unfold MigrationScript.run at hr
    rcases hs : runStatements exec s.content db.schema with e | sch <;> rw [hs] at hr
    · simp at hr
    dsimp only at hr
    rcases hi : insertRes sch db.ledger (rowOf s) with _ | e <;> rw [hi] at hr
    swap
    · simp at hr
    dsimp only at hr
    simp only [Except.ok.injEq] at hr
    rw [← hr] at h1
    simp only [List.map_cons] at h1 ⊢
    rw [h1]
    simp

theorem runStatements_append {σ τ : Type} (exec : σ → τ → Except String σ)
    (a b : List τ) :
    ∀ s : σ, runStatements exec (a ++ b) s =
      (runStatements exec a s).bind (fun s' => runStatements exec b s') := by
  induction a with
  | nil => intro s; rfl
  | cons st rest ih =>
    intro s
    rw [List.cons_append, runStatements, runStatements]
    rcases hx : exec s st with e | s'
    · rfl
    · exact ih s'

theorem installLoop_schema {σ τ : Type} {exec : σ → τ → Except String σ}
    {insertRes : σ → List AppliedMigration → AppliedMigration → Option String} :
    ∀ {plan : List (MigrationScript (List τ))} {db db' : DbState σ},
      installLoop exec insertRes plan db = .ok db' →
        runStatements exec ((plan.map (fun s => s.content)).flatten) db.schema =
          .ok db'.schema := by
  intro plan
  induction plan with
  | nil =>
    intro db db' h
    simp only [installLoop, Except.ok.injEq] at h
    rw [← h]
    rfl
  | cons s rest ih =>
    intro db db' h
    rw [installLoop] at h
    rcases hr : s.run exec insertRes db with e | db1 <;> rw [hr] at h
    · simp at h
    have hrest := ih h
    unfold MigrationScript.run at hr
    rcases hs : runStatements exec s.content db.schema with e | sch <;> rw [hs] at hr
    · simp at hr
    dsimp only at hr
    rcases hi : insertRes sch db.ledger (rowOf s) with _ | e <;> rw [hi] at hr
    swap
    · simp at hr
    dsimp only at hr
    simp only [Except.ok.injEq] at hr
    have hdb1 : db1.schema = sch := by rw [← hr]
    rw [List.map_cons, List.flatten_cons, runStatements_append, hs]
    rw [hdb1] at hrest
    exact hrest

theorem installLoop_append {σ τ : Type} {exec : σ → τ → Except String σ}
    {insertRes : σ → List AppliedMigration → AppliedMigration → Option String}
    {p q : List (MigrationScript (List τ))} {db : DbState σ} :
    installLoop exec insertRes (p ++ q) db =
      (installLoop exec insertRes p db).bind
        (fun db0 => installLoop exec insertRes q db0) := by
  induction p generalizing db with
  | nil => simp [installLoop, Except.bind]
  | cons s rest ih =>
    rw [List.cons_append, installLoop, installLoop]
    rcases hr : s.run exec insertRes db with e | db1
    · rfl
    · exact ih

/-- The catalog produced by a successful `all_in_directory`. -/
def discoveredCatalog (names : List Str) : List ParsedScriptName :=
  List.insertionSort scriptLe
    (names.filterMap (fun n => (ParsedScriptName.from_static_str n).toOption))

theorem get_scripts_internal_eq {γ : Type} (V : Version) (dir : List (Str × γ))
    (applied : List AppliedMigration) :
    MigrationScript.get_scripts_internal V dir applied =
      (List.insertionSort scriptLe
        (candidateNames V (discoveredCatalog (dir.map (fun e => e.1))) applied)).mapM
        (MigrationScript.new dir) := rfl

theorem currentVersion_of_listMax {V m : Version} {applied : List AppliedMigration}
    (h : listMax (applied.map (fun a => a.version)) = some m) :
    currentVersion V applied = m := by
  rw [currentVersion, h]
  rfl

/-- Core idempotence of the planner: if one run computed plan `plan` and a
ledger row was recorded for each of its scripts, the next run computes the
empty plan. -/
theorem plan_idempotent {γ : Type} {V : Version} {dir : List (Str × γ)}
    {L : List AppliedMigration} {plan : List (MigrationScript γ)}
    (h : MigrationScript.get_scripts_internal V dir L = .ok plan) :
    MigrationScript.get_scripts_internal V dir (L ++ plan.map rowOf) = .ok [] := by
  rw [get_scripts_internal_eq] at h ⊢
  have hnames := mapM_new_names h
  have hchain : ∀ s : ParsedScriptName,
      s ∈ (ParsedScriptName.init_script V ::
        (discoveredCatalog (dir.map (fun e => e.1))).filter
          (fun n => Version.ge n.fromV (currentVersion V L))) →
      (L.any (fun a => a.name == s.original)) = false →
      ∃ p ∈ plan, p.name = s := by
    intro s hsbase hnotL
    have hcand : s ∈ candidateNames V (discoveredCatalog (dir.map (fun e => e.1))) L := by
      unfold candidateNames
      rw [List.mem_filter]
      refine ⟨hsbase, ?_⟩
      rw [hnotL]
      rfl
    have hsort : s ∈ List.insertionSort scriptLe
        (candidateNames V (discoveredCatalog (dir.map (fun e => e.1))) L) :=
      (List.perm_insertionSort _ _).mem_iff.2 hcand
    rw [← hnames, List.mem_map] at hsort
    exact hsort
  have hrowmem : ∀ s : ParsedScriptName, (∃ p ∈ plan, p.name = s) →
      ((plan.map rowOf).any (fun a => a.name == s.original)) = true := by
    rintro s ⟨p, hp, hpn⟩
    rw [List.any_eq_true]
    refine ⟨rowOf p, List.mem_map_of_mem _ hp, ?_⟩
    simp [rowOf, hpn]
  have hcur : lexLe (currentVersion V L) (currentVersion V (L ++ plan.map rowOf)) := by
    cases L with
    | nil =>
      rw [List.nil_append]
      obtain ⟨p, hp, hpn⟩ := hchain (ParsedScriptName.init_script V)
        (List.mem_cons_self _ _) rfl
      have hvmem : V ∈ ((plan.map rowOf).map (fun a => a.version)) := by
        rw [List.mem_map]
        refine ⟨rowOf p, List.mem_map_of_mem _ hp, ?_⟩
        simp [rowOf, hpn, ParsedScriptName.init_script]
      have hne : ((plan.map rowOf).map (fun a => a.version)) ≠ [] := by
        intro hnil
        rw [hnil] at hvmem
        simp at hvmem
      obtain ⟨m, hm⟩ := listMax_isSome hne
      rw [currentVersion_of_listMax hm]
      exact le_listMax hvmem hm
    | cons a0 Lrest =>
      have hne1 : ((a0 :: Lrest).map (fun a => a.version)) ≠ [] := by simp
      obtain ⟨m1, hm1⟩ := listMax_isSome hne1
      have hne2 : (((a0 :: Lrest) ++ plan.map rowOf).map (fun a => a.version)) ≠ [] := by
        simp
      obtain ⟨m2, hm2⟩ := listMax_isSome hne2
      rw [currentVersion_of_listMax hm1, currentVersion_of_listMax hm2]
      refine le_listMax ?_ hm2
      rw [List.map_append]
      exact List.mem_append_left _ (listMax_mem hm1)
  have hempty : candidateNames V (discoveredCatalog (dir.map (fun e => e.1)))
      (L ++ plan.map rowOf) = [] := by
    unfold candidateNames
    rw [List.filter_eq_nil_iff]
    intro s hsmem
    rw [Bool.not_eq_true, Bool.not_eq_false', List.any_append]
    by_cases hL : (L.any (fun a => a.name == s.original)) = true
    · rw [hL]
      rfl
    · rw [Bool.not_eq_true] at hL
      have hsbase : s ∈ (ParsedScriptName.init_script V ::
          (discoveredCatalog (dir.map (fun e => e.1))).filter
            (fun n => Version.ge n.fromV (currentVersion V L))) := by
        rcases List.mem_cons.1 hsmem with rfl | hsmem'
        · exact List.mem_cons_self _ _
        · rw [List.mem_filter] at hsmem'
          obtain ⟨hcat, hge⟩ := hsmem'
          refine List.mem_cons_of_mem _ (List.mem_filter.2 ⟨hcat, ?_⟩)
          rw [ge_iff] at hge ⊢
          exact lexLe_trans hcur hge
      rw [hrowmem s (hchain s hsbase hL)]
      simp
  rw [hempty]
  rfl

/-- Parse/format round trip for `Version`, for every version whose
segments fit in `u32` (every source `Version` does). -/
theorem fromStr_toChars {v : Version} (h1 : v.major ≤ u32Max)
    (h2 : v.minor ≤ u32Max) (h3 : v.patch ≤ u32Max) :
    Version.fromStr (Version.toChars v) = .ok v := by
  unfold Version.toChars Version.fromStr
  have hsplit : splitDot (natChars v.major ++ '.' :: (natChars v.minor ++ '.' :: natChars v.patch)) =
      [natChars v.major, natChars v.minor, natChars v.patch] := by
    rw [splitDot_append _ (fun c hc => isDigit_ne_dot (natChars_all_digits _ c hc)),
      splitDot_append _ (fun c hc => isDigit_ne_dot (natChars_all_digits _ c hc)),
      splitDot_no_dot (fun c hc => isDigit_ne_dot (natChars_all_digits _ c hc))]
  rw [hsplit]
  simp only [isDigits_natChars, Bool.and_self, reduceIte, parseDigits_natChars]
  rw [if_pos ⟨h1, h2, h3⟩]

instance {ε α : Type} [DecidableEq ε] [DecidableEq α] : DecidableEq (Except ε α) := by
  intro x y
  cases x with
  | error u =>
    cases y with
    | error v =>
      exact if h : u = v then isTrue (by rw [h]) else
        isFalse (fun hh => h (by cases hh; rfl))
    | ok v => exact isFalse (fun hh => by cases hh)
  | ok u =>
    cases y with
    | error v => exact isFalse (fun hh => by cases hh)
    | ok v =>
      exact if h : u = v then isTrue (by rw [h]) else
        isFalse (fun hh => h (by cases hh; rfl))

/-! ### Concrete example data used by the claims -/

def v100 : Version := ⟨1, 0, 0⟩

def v110 : Version := ⟨1, 1, 0⟩

def v120 : Version := ⟨1, 2, 0⟩

def exName1 : Str := str "pgmq--1.0.0--1.1.0.sql"

def exName2 : Str := str "pgmq--1.1.0--1.2.0.sql"

/-- A directory like the bundled `pgmq-extension/sql/`: the fresh-install
script plus two catalog scripts (opaque contents). -/
def exDir : List (Str × Str) :=
  [(str "pgmq.sql", str "init"),
   (exName1, str "upgrade a"),
   (exName2, str "upgrade b")]

def exScript1 : MigrationScript Str := ⟨⟨exName1, v100, v110⟩, str "upgrade a"⟩

def exScript2 : MigrationScript Str := ⟨⟨exName2, v110, v120⟩, str "upgrade b"⟩

def exInit (v : Version) : MigrationScript Str :=
  ⟨ParsedScriptName.init_script v, str "init"⟩

/-! ### Claim theorems -/

/-- C8: comparison of `Version` values is a strict total order that
compares `major` first, then `minor`, then `patch`, numerically, and
parsing the string produced by formatting any `Version` (with `u32`-sized
segments, as in the source) yields it back. -/
theorem C8_version_order_roundtrip :
    (∀ a : Version, Version.cmp a a = .eq) ∧
    (∀ a b c : Version,
      Version.cmp a b = .lt → Version.cmp b c = .lt → Version.cmp a c = .lt) ∧
    (∀ a b : Version, a ≠ b → Version.cmp a b = .lt ∨ Version.cmp b a = .lt) ∧
    (∀ a b : Version, Version.cmp a b = .lt ↔
      (a.major < b.major ∨ (a.major = b.major ∧
        (a.minor < b.minor ∨ (a.minor = b.minor ∧ a.patch < b.patch))))) ∧
    (∀ a b : Version, Version.cmp a b = .eq ↔ a = b) ∧
    (∀ v : Version, v.major ≤ u32Max → v.minor ≤ u32Max → v.patch ≤ u32Max →
      Version.fromStr (Version.toChars v) = .ok v) := by
  refine ⟨fun a => (cmp_eq_eq_iff a a).2 rfl, ?_, ?_, ?_, cmp_eq_eq_iff,
    fun v h1 h2 h3 => fromStr_toChars h1 h2 h3⟩
  · intro a b c hab hbc
    rw [cmp_eq_lt_iff] at hab hbc ⊢
    unfold lexLt at hab hbc ⊢
    omega
  · intro a b hne
    rw [cmp_eq_lt_iff, cmp_eq_lt_iff]
    unfold lexLt
    obtain ⟨a1, a2, a3⟩ := a
    obtain ⟨b1, b2, b3⟩ := b
    simp only [ne_eq, Version.mk.injEq] at hne
    dsimp only
    omega
  · intro a b
    rw [cmp_eq_lt_iff]
    exact Iff.rfl

/-- Witness for C8 at concrete versions. -/
theorem C8_version_order_roundtrip_witness :
    Version.cmp ⟨1, 0, 0⟩ ⟨2, 0, 0⟩ = .lt ∧
      (Version.cmp ⟨1, 0, 0⟩ ⟨1, 11, 0⟩ = .lt ∨ Version.cmp ⟨1, 11, 0⟩ ⟨1, 0, 0⟩ = .lt) ∧
      Version.fromStr (Version.toChars ⟨1, 11, 0⟩) = .ok ⟨1, 11, 0⟩ :=
  ⟨C8_version_order_roundtrip.2.1 ⟨1, 0, 0⟩ ⟨1, 5, 0⟩ ⟨2, 0, 0⟩ (by decide) (by decide),
   C8_version_order_roundtrip.2.2.1 ⟨1, 0, 0⟩ ⟨1, 11, 0⟩ (by decide),
   C8_version_order_roundtrip.2.2.2.2.2 ⟨1, 11, 0⟩ (by decide) (by decide) (by decide)⟩

/-- C10: version segments are bounded 32-bit integers: any three-digit-
segment input with a segment above `u32::MAX` fails to parse (e.g.
`4294967296.0.0`), and every successfully parsed `Version` has all
segments within `u32` range. -/
theorem C10_u32_bounds :
    (Version.fromStr (str "4294967296.0.0")).isOk = false ∧
    (∀ (s : Str) (v : Version), Version.fromStr s = .ok v →
      v.major ≤ u32Max ∧ v.minor ≤ u32Max ∧ v.patch ≤ u32Max) ∧
    (∀ s a b c : Str, splitDot s = [a, b, c] →
      isDigits a = true → isDigits b = true → isDigits c = true →
      (u32Max < parseDigits a ∨ u32Max < parseDigits b ∨ u32Max < parseDigits c) →
      (Version.fromStr s).isOk = false) := by
  refine ⟨rfl, ?_, ?_⟩
  · intro s v h
    obtain ⟨a, b, c, -, -, -, -, -, -, -, h1, h2, h3⟩ := fromStr_ok_elim h
    exact ⟨h1, h2, h3⟩
  · intro s a b c hs ha hb hc hover
    unfold Version.fromStr
    rw [hs]
    dsimp only
    rw [if_pos (by rw [Bool.and_eq_true, Bool.and_eq_true]; exact ⟨⟨ha, hb⟩, hc⟩)]
    rw [if_neg (by intro hcon; omega)]
    rfl

/-- Witness for C10 at concrete inputs. -/
theorem C10_u32_bounds_witness :
    ((⟨1, 2, 3⟩ : Version).major ≤ u32Max ∧ (⟨1, 2, 3⟩ : Version).minor ≤ u32Max ∧
      (⟨1, 2, 3⟩ : Version).patch ≤ u32Max) ∧
    (Version.fromStr (str "4294967296.0.0")).isOk = false :=
  ⟨C10_u32_bounds.2.1 (str "1.2.3") ⟨1, 2, 3⟩ (by rfl),
   C10_u32_bounds.2.2 (str "4294967296.0.0") (str "4294967296") (str "0") (str "0")
     (by decide) (by decide) (by decide) (by decide) (by decide)⟩

def badDotName : Str := str "pgmq--1.0.0--1.1.0Xsql"

/-- What C9 claims the accepted shape to be: the literal suffix `.sql`. -/
def claimedCanonical (s : Str) : Prop :=
  ∃ f t, s = str "pgmq--" ++ ((f ++ ('-' :: '-' :: t)) ++ str ".sql") ∧
    (Version.fromStr f).isOk = true ∧ (Version.fromStr t).isOk = true

/-- C9 counterexample: `pgmq--1.0.0--1.1.0Xsql` is accepted by the parser
(the `.` before `sql` in the regex is an unescaped wildcard), although it
does not end in the literal `.sql` — so acceptance is not "exactly the
`pgmq--<from>--<to>.sql` shape". -/
theorem C9_exact_naming_counterexample :
    (ParsedScriptName.from_static_str badDotName).isOk = true ∧
      ¬ claimedCanonical badDotName := by
  refine ⟨rfl, ?_⟩
  rintro ⟨f, t, heq, -, -⟩
  have h1 : List.drop (badDotName.length - 4) badDotName = ['X', 's', 'q', 'l'] := by
    decide
  rw [heq, ← List.append_assoc, List.length_append] at h1
  have h4 : (str ".sql").length = 4 := rfl
  rw [h4, Nat.add_sub_cancel, List.drop_left] at h1
  exact absurd h1 (by decide)

/-- C9 amended: a filename is accepted exactly when it is
`pgmq--<from>--<to><c>sql` where `<from>` and `<to>` parse as versions,
the separating `--` is the last one in the name, and `<c>` is a single
arbitrary character other than a newline (the regex dot).  The literal
suffix `.sql` is the special case `<c> = '.'`. -/
theorem C9_exact_naming_amended (s : Str) :
    (ParsedScriptName.from_static_str s).isOk = true ↔ regexAccept s :=
  from_static_str_ok_iff s

def badVersionName : Str := str "pgmq--a.b.c--1.2.3.sql"

/-- C6 counterexample: `pgmq--a.b.c--1.2.3.sql` matches the script-name
pattern (the captures are `a.b.c` and `1.2.3`) and its `from` fails to
parse, yet discovery succeeds and silently skips it instead of failing
with an `InvalidVersionFormat` error. -/
theorem C6_discovery_errors_counterexample :
    scriptNameCaptures badVersionName = some (str "a.b.c", str "1.2.3") ∧
      (Version.fromStr (str "a.b.c")).isOk = false ∧
      ParsedScriptName.all_in_directory [badVersionName] = .ok [] :=
  ⟨rfl, rfl, rfl⟩

/-- C6 amended: discovery never fails on a file name: every name that
`from_static_str` rejects — whether it fails the pattern or has a
malformed embedded version — is silently skipped, and the catalog consists
exactly of the names the parser accepts. -/
theorem C6_discovery_errors_amended (names : List Str) :
    ∃ l, ParsedScriptName.all_in_directory names = .ok l ∧
      ∀ p : ParsedScriptName,
        p ∈ l ↔ ∃ n ∈ names, ParsedScriptName.from_static_str n = .ok p := by
  refine ⟨_, rfl, ?_⟩
  intro p
  rw [(List.perm_insertionSort _ _).mem_iff, List.mem_filterMap]
  constructor
  · rintro ⟨n, hn, hsome⟩
    refine ⟨n, hn, ?_⟩
    rcases he : ParsedScriptName.from_static_str n with e | q <;> rw [he] at hsome
    · simp [Except.toOption] at hsome
    · simp only [Except.toOption, Option.some.injEq] at hsome
      subst hsome
      rfl
  · rintro ⟨n, hn, hok⟩
    refine ⟨n, hn, ?_⟩
    rw [hok]
    rfl

def dupName2 : Str := str "pgmq--1.0.0--1.2.0.sql"

/-- C7 counterexample: a catalog containing two upgrade edges leaving the
same source version `1.0.0` is returned without any error — catalog
construction raises no `ValidationError`. -/
theorem C7_single_path_counterexample :
    ∃ l, ParsedScriptName.all_in_directory [exName1, dupName2] = .ok l ∧
      l.length = 2 ∧ ∀ p ∈ l, ∀ q ∈ l, p.fromV = q.fromV := by
  refine ⟨_, rfl, rfl, ?_⟩
  decide

/-- C7 amended: catalog construction performs no single-upgrade-path
validation: the two `from = 1.0.0` descriptors are both returned, sorted,
with no error.  (The invariant is only asserted by a unit test against the
bundled scripts.) -/
theorem C7_single_path_amended :
    ParsedScriptName.all_in_directory [exName1, dupName2] =
      .ok [⟨exName1, v100, v110⟩, ⟨dupName2, v100, v120⟩] := rfl

/-- C3: with an empty ledger, `currentVersion` is the bundled target
version; for target `1.2.0` and the catalog
`pgmq--1.0.0--1.1.0, pgmq--1.1.0--1.2.0`, the plan is exactly the init
script (`from 0.0.0`, `to 1.2.0`): both catalog edges are excluded since
their `from` is below the target. -/
theorem C3_fresh_plan :
    currentVersion v120 [] = v120 ∧
      MigrationScript.get_scripts_internal v120 exDir [] = .ok [exInit v120] ∧
      (exInit v120).name.fromV = ⟨0, 0, 0⟩ ∧ (exInit v120).name.toV = v120 :=
  ⟨rfl, rfl, rfl, rfl⟩

/-- C4: a script whose name appears in the applied list is never in the
plan, and the plan is sorted ascending by `from`; concretely, with the
init script recorded at `1.0.0` the plan is the two catalog scripts in
order, and additionally recording `pgmq--1.0.0--1.1.0.sql` drops it from
the plan. -/
theorem C4_applied_exclusion_and_order :
    (∀ (γ : Type) (V : Version) (dir : List (Str × γ))
        (applied : List AppliedMigration) (plan : List (MigrationScript γ)),
      MigrationScript.get_scripts_internal V dir applied = .ok plan →
        (∀ p ∈ plan, ∀ a ∈ applied, p.name.original ≠ a.name) ∧
          plan.Pairwise (fun p q => lexLe p.name.fromV q.name.fromV)) ∧
    MigrationScript.get_scripts_internal v120 exDir
        [⟨INIT_SCRIPT_NAME, v100⟩] = .ok [exScript1, exScript2] ∧
    MigrationScript.get_scripts_internal v120 exDir
        [⟨INIT_SCRIPT_NAME, v100⟩, ⟨exName1, v110⟩] = .ok [exScript2] := by
  refine ⟨?_, rfl, rfl⟩
  intro γ V dir applied plan h
  rw [get_scripts_internal_eq] at h
  have hnames := mapM_new_names h
  constructor
  · intro p hp a ha heq
    have hmem : p.name ∈ List.insertionSort scriptLe
        (candidateNames V (discoveredCatalog (dir.map (fun e => e.1))) applied) := by
      rw [← hnames]
      exact List.mem_map_of_mem _ hp
    have hcand := (List.perm_insertionSort _ _).mem_iff.1 hmem
    unfold candidateNames at hcand
    rw [List.mem_filter] at hcand
    have hany := hcand.2
    rw [Bool.not_eq_true'] at hany
    rw [List.any_eq_false] at hany
    exact hany a ha (beq_iff_eq.2 heq.symm)
  · have hsorted := List.sorted_insertionSort scriptLe
      (candidateNames V (discoveredCatalog (dir.map (fun e => e.1))) applied)
    rw [← hnames] at hsorted
    rw [List.Sorted, List.pairwise_map] at hsorted
    exact hsorted.imp (fun hab => (scriptLe_iff _ _).1 hab)

/-- Witness for C4's general part, discharged on the concrete second
scenario of the claim. -/
theorem C4_applied_exclusion_and_order_witness :
    (∀ p ∈ [exScript2], ∀ a ∈ [(⟨INIT_SCRIPT_NAME, v100⟩ : AppliedMigration),
        ⟨exName1, v110⟩], p.name.original ≠ a.name) ∧
      List.Pairwise (fun p q : MigrationScript Str => lexLe p.name.fromV q.name.fromV)
        [exScript1, exScript2] :=
  ⟨(C4_applied_exclusion_and_order.1 Str v120 exDir
      [⟨INIT_SCRIPT_NAME, v100⟩, ⟨exName1, v110⟩] [exScript2] (by rfl)).1,
   (C4_applied_exclusion_and_order.1 Str v120 exDir
      [⟨INIT_SCRIPT_NAME, v100⟩] [exScript1, exScript2] (by rfl)).2⟩

def appliedFuture : List AppliedMigration := [⟨str "foo", ⟨2, 0, 0⟩⟩]

/-- C5 counterexample: a nonempty ledger (one row, version `2.0.0`) whose
maximum strictly exceeds the `from` of every catalog script, yet the plan
is not empty: the init script's name is not in the ledger, and the init
script is unconditionally a candidate, so the plan is `[pgmq.sql]`. -/
theorem C5_future_noop_counterexample :
    appliedFuture ≠ [] ∧
      currentVersion v100 appliedFuture = ⟨2, 0, 0⟩ ∧
      (∀ c ∈ discoveredCatalog (exDir.map (fun e => e.1)),
        Version.cmp c.fromV (currentVersion v100 appliedFuture) = .lt) ∧
      MigrationScript.get_scripts_internal v100 exDir appliedFuture =
        .ok [exInit v100] ∧
      [exInit v100] ≠ ([] : List (MigrationScript Str)) := by
  refine ⟨by decide, rfl, by decide, rfl, by decide⟩

/-- C5 amended: the future-version no-op holds provided the ledger also
contains the init script's name (`pgmq.sql`) — which any ledger written by
this installer does: then every candidate is filtered out and the plan is
empty. -/
theorem C5_future_noop_amended {γ : Type} (V : Version) (dir : List (Str × γ))
    (applied : List AppliedMigration)
    (_hne : applied ≠ [])
    (hfuture : ∀ c ∈ discoveredCatalog (dir.map (fun e => e.1)),
      Version.cmp c.fromV (currentVersion V applied) = .lt)
    (hinit : ∃ a ∈ applied, a.name = INIT_SCRIPT_NAME) :
    MigrationScript.get_scripts_internal V dir applied = .ok [] := by
  rw [get_scripts_internal_eq]
  have hempty : candidateNames V (discoveredCatalog (dir.map (fun e => e.1))) applied = [] := by
    unfold candidateNames
    rw [List.filter_eq_nil_iff]
    intro s hsmem
    rw [Bool.not_eq_true, Bool.not_eq_false']
    rcases List.mem_cons.1 hsmem with rfl | hsmem'
    · rw [List.any_eq_true]
      obtain ⟨a, ha, hname⟩ := hinit
      exact ⟨a, ha, by rw [hname]; exact beq_self_eq_true _⟩
    · rw [List.mem_filter] at hsmem'
      obtain ⟨hcat, hge⟩ := hsmem'
      have hlt := hfuture s hcat
      rw [ge_iff] at hge
      rw [cmp_eq_lt_iff] at hlt
      exfalso
      rcases hge with hlt2 | heq
      · unfold lexLt at hlt hlt2
        omega
      · rw [heq] at hlt
        unfold lexLt at hlt
        omega
  rw [hempty]
  rfl

/-- Witness for C5's amended statement. -/
theorem C5_future_noop_amended_witness :
    MigrationScript.get_scripts_internal v100
      [(str "pgmq.sql", str "init")] [⟨INIT_SCRIPT_NAME, ⟨2, 0, 0⟩⟩] = .ok [] :=
  C5_future_noop_amended v100 [(str "pgmq.sql", str "init")]
    [⟨INIT_SCRIPT_NAME, ⟨2, 0, 0⟩⟩] (by decide) (by decide)
    ⟨⟨INIT_SCRIPT_NAME, ⟨2, 0, 0⟩⟩, List.mem_singleton.2 rfl, rfl⟩

/-- C2: `install_sql` is atomic.  A failing statement aborts its script
with that error; a failing ledger INSERT (recording an applied script)
aborts with that error; a script failing anywhere in the plan fails the
whole loop with its error; and `install_sql` surfaces the error of a
failed planning step or a failed loop while leaving the committed state
exactly as it was — no partially applied script or plan is ever committed.
When the whole plan runs, the result is `Ok` and the committed state has
the old ledger extended by precisely one `(name, to)` row per plan script,
the schema being the sequential execution of every statement of every
script. -/
theorem C2_install_atomic {σ τ : Type} (exec : σ → τ → Except String σ)
    (insertRes : σ → List AppliedMigration → AppliedMigration → Option String)
    (V : Version) (dir : List (Str × List τ)) (db : DbState σ) :
    (∀ (s : MigrationScript (List τ)) (db0 : DbState σ) (e : String),
      runStatements exec s.content db0.schema = .error e →
        s.run exec insertRes db0 = .error e) ∧
    (∀ (s : MigrationScript (List τ)) (db0 : DbState σ) (sch : σ) (e : String),
      runStatements exec s.content db0.schema = .ok sch →
      insertRes sch db0.ledger (rowOf s) = some e →
        s.run exec insertRes db0 = .error e) ∧
    (∀ (p q : List (MigrationScript (List τ))) (s : MigrationScript (List τ))
        (db0 : DbState σ) (e : String),
      installLoop exec insertRes p db = .ok db0 →
      s.run exec insertRes db0 = .error e →
        installLoop exec insertRes (p ++ s :: q) db = .error e) ∧
    (∀ e, MigrationScript.get_scripts_internal V dir db.ledger = .error e →
      install_sql exec insertRes V dir db = (.error e, db)) ∧
    (∀ plan, MigrationScript.get_scripts_internal V dir db.ledger = .ok plan →
      (∀ e, installLoop exec insertRes plan db = .error e →
        install_sql exec insertRes V dir db = (.error e, db)) ∧
      (∀ db', installLoop exec insertRes plan db = .ok db' →
        install_sql exec insertRes V dir db = (.ok (), db') ∧
        db'.ledger = db.ledger ++ plan.map rowOf ∧
        runStatements exec ((plan.map (fun s => s.content)).flatten) db.schema =
          .ok db'.schema)) := by
  refine ⟨?_, ?_, ?_, ?_, ?_⟩
  · intro s db0 e hs
    unfold MigrationScript.run
    rw [hs]
  · intro s db0 sch e hs hi
    unfold MigrationScript.run
    rw [hs]
    dsimp only
    rw [hi]
  · intro p q s db0 e hp hr
    rw [installLoop_append, hp]
    show installLoop exec insertRes (s :: q) db0 = .error e
    rw [installLoop, hr]
  · intro e he
    unfold install_sql
    rw [he]
  · intro plan hplan
    constructor
    · intro e herr
      unfold install_sql
      rw [hplan]
      dsimp only
      rw [herr]
    · intro db' hsome
      refine ⟨?_, installLoop_ledger hsome, installLoop_schema hsome⟩
      unfold install_sql
      rw [hplan]
      dsimp only
      rw [hsome]

def exExecNat : Nat → Bool → Except String Nat :=
  fun s b => if b then .ok (s + 1) else .error "statement failed"

/-- A database on which the ledger INSERT succeeds. -/
def exInsertOk : Nat → List AppliedMigration → AppliedMigration → Option String :=
  fun _ _ _ => none

/-- A database on which the ledger INSERT fails. -/
def exInsertFail : Nat → List AppliedMigration → AppliedMigration → Option String :=
  fun _ _ _ => some "insert failed"

def exDirOk : List (Str × List Bool) := [(str "pgmq.sql", [true, true])]

def exDirFail : List (Str × List Bool) := [(str "pgmq.sql", [true, false])]

def exInitScript : MigrationScript (List Bool) :=
  ⟨ParsedScriptName.init_script v120, [true, true]⟩

/-- Witness for C2: a failing statement and a failing ledger INSERT each
roll the state back, surfacing their error; a successful plan commits the
schema effects and exactly the plan's ledger rows. -/
theorem C2_install_atomic_witness :
    MigrationScript.run exExecNat exInsertOk
        ⟨ParsedScriptName.init_script v120, [true, false]⟩ ⟨0, []⟩ =
      .error "statement failed" ∧
    MigrationScript.run exExecNat exInsertFail exInitScript ⟨0, []⟩ =
      .error "insert failed" ∧
    installLoop exExecNat exInsertFail ([] ++ exInitScript :: []) ⟨0, []⟩ =
      .error "insert failed" ∧
    install_sql exExecNat exInsertFail v120 exDirOk ⟨0, []⟩ =
      (.error "insert failed", ⟨0, []⟩) ∧
    install_sql exExecNat exInsertOk v120 exDirFail ⟨0, []⟩ =
      (.error "statement failed", ⟨0, []⟩) ∧
    install_sql exExecNat exInsertOk v120 exDirOk ⟨0, []⟩ =
      (.ok (), ⟨2, [⟨INIT_SCRIPT_NAME, v120⟩]⟩) ∧
    (⟨2, [⟨INIT_SCRIPT_NAME, v120⟩]⟩ : DbState Nat).ledger =
      ([] : List AppliedMigration) ++ [exInitScript].map rowOf :=
  have hc2fail := C2_install_atomic exExecNat exInsertFail v120 exDirOk ⟨0, []⟩
  have hc2stmt := C2_install_atomic exExecNat exInsertOk v120 exDirFail ⟨0, []⟩
  have hc2ok := ((C2_install_atomic exExecNat exInsertOk v120 exDirOk ⟨0, []⟩).2.2.2.2
    [exInitScript] (by rfl)).2 ⟨2, [⟨INIT_SCRIPT_NAME, v120⟩]⟩ (by rfl)
  ⟨hc2stmt.1 ⟨ParsedScriptName.init_script v120, [true, false]⟩ ⟨0, []⟩
      "statement failed" (by rfl),
   hc2fail.2.1 exInitScript ⟨0, []⟩ 2 "insert failed" (by rfl) (by rfl),
   hc2fail.2.2.1 [] [] exInitScript ⟨0, []⟩ "insert failed" (by rfl) (by rfl),
   (hc2fail.2.2.2.2 [exInitScript] (by rfl)).1 "insert failed" (by rfl),
   (hc2stmt.2.2.2.2 [⟨ParsedScriptName.init_script v120, [true, false]⟩] (by rfl)).1
     "statement failed" (by rfl),
   hc2ok.1, hc2ok.2.1⟩

/-- C1: planning is idempotent.  If an install run completes — its plan
ran fully, each statement and each ledger INSERT succeeding, so one
`(name, to)` row was recorded per plan script — then a second run computes
the empty plan, succeeds, and leaves the ledger and schema exactly as
after the first run; `install_sql` is idempotent on the committed state. -/
theorem C1_install_idempotent {σ τ : Type} (exec : σ → τ → Except String σ)
    (insertRes : σ → List AppliedMigration → AppliedMigration → Option String)
    (V : Version) (dir : List (Str × List τ)) (db db1 : DbState σ)
    (plan1 : List (MigrationScript (List τ)))
    (hplan : MigrationScript.get_scripts_internal V dir db.ledger = .ok plan1)
    (hrun : installLoop exec insertRes plan1 db = .ok db1) :
    install_sql exec insertRes V dir db = (.ok (), db1) ∧
      MigrationScript.get_scripts_internal V dir db1.ledger = .ok [] ∧
      install_sql exec insertRes V dir db1 = (.ok (), db1) ∧
      (install_sql exec insertRes V dir
          (install_sql exec insertRes V dir db).2).2 =
        (install_sql exec insertRes V dir db).2 := by
  have h1 : install_sql exec insertRes V dir db = (.ok (), db1) := by
    unfold install_sql
    rw [hplan]
    dsimp only
    rw [hrun]
  have hled : db1.ledger = db.ledger ++ plan1.map rowOf := installLoop_ledger hrun
  have h2 : MigrationScript.get_scripts_internal V dir db1.ledger = .ok [] := by
    rw [hled]
    exact plan_idempotent hplan
  have h3 : install_sql exec insertRes V dir db1 = (.ok (), db1) := by
    unfold install_sql
    rw [h2]
    rfl
  refine ⟨h1, h2, h3, ?_⟩
  rw [h1]
  dsimp only
  rw [h3]

/-- Witness for C1: a fresh install followed by a second call that plans
nothing, succeeds, and changes nothing. -/
theorem C1_install_idempotent_witness :
    install_sql exExecNat exInsertOk v120 exDirOk ⟨0, []⟩ =
        (.ok (), ⟨2, [⟨INIT_SCRIPT_NAME, v120⟩]⟩) ∧
      MigrationScript.get_scripts_internal v120 exDirOk
        (⟨2, [⟨INIT_SCRIPT_NAME, v120⟩]⟩ : DbState Nat).ledger = .ok [] ∧
      install_sql exExecNat exInsertOk v120 exDirOk ⟨2, [⟨INIT_SCRIPT_NAME, v120⟩]⟩ =
        (.ok (), ⟨2, [⟨INIT_SCRIPT_NAME, v120⟩]⟩) :=
  have h := C1_install_idempotent exExecNat exInsertOk v120 exDirOk ⟨0, []⟩
    ⟨2, [⟨INIT_SCRIPT_NAME, v120⟩]⟩ [exInitScript] (by rfl) (by rfl)
  ⟨h.1, h.2.1, h.2.2.1⟩

end Pgmq
